import Mathlib

/-!
Shallow embedding of `src/flash-layout/src/lib.rs` (crate `flash-layout` of the
`mtxn` repository) together with proofs about its addressing arithmetic.

Modelling conventions:
- The Rust machine integers `u64`/`u32` are modelled as `Nat`.  The verified
  properties are about the addressing arithmetic, not about wrap-around, and
  the Rust build traps on overflow rather than wrapping.
- Rust `panic!` in `FlashLayout::new`/`validate_regions` is modelled as the
  `Except`-failure `LayoutError.InvalidLayout`, following the abstraction used
  by the specification (construction "fails with InvalidLayout").
- The slice `&[Region]` is modelled as `List Region`; slice indexing
  `regions[i]` (which is only executed at in-bounds indices in the modelled
  code paths) is modelled with `List.getD`.
- The potential division by zero in `find_eb_by_addr` (Rust `/` panics on a
  zero divisor) is tracked by the separate executable predicate
  `find_eb_by_addr_hits_div_by_zero`, which is true exactly when the Rust
  execution would reach the division with a zero divisor.
-/

namespace Mtxn

/-- A region within a flash device which contains a particular size and number
of erase blocks.  Mirrors `struct Region` (fields `addr`, `eb_bytes`,
`eb_count`). -/
structure Region where
  addr : Nat
  eb_bytes : Nat
  eb_count : Nat
deriving DecidableEq

/-- Mirrors `Region::addr_start`. -/
def Region.addr_start (r : Region) : Nat := r.addr

/-- Mirrors `Region::len` (`eb_bytes as u64 * eb_count as u64`). -/
def Region.len (r : Region) : Nat := r.eb_bytes * r.eb_count

/-- Mirrors `Region::addr_end` (`addr + len`). -/
def Region.addr_end (r : Region) : Nat := r.addr + r.len

/-- Mirrors `Region::contains_addr`
(`addr < self.addr_end() && addr >= self.addr_start()`). -/
def Region.contains_addr (r : Region) (addr : Nat) : Bool :=
  decide (addr < r.addr_end) && decide (addr ≥ r.addr_start)

/-- Mirrors `struct FlashLayout` (the borrowed slice is a list). -/
structure FlashLayout where
  regions : List Region
deriving DecidableEq

/-- Mirrors `struct EraseBlock` (layout reference, region index, offset in
region). -/
structure EraseBlock where
  layout : FlashLayout
  region_idx : Nat
  eb_offs_in_region : Nat
deriving DecidableEq

/-- Mirrors `EraseBlock::region` (`&self.layout.regions[self.region_idx]`);
the out-of-bounds case, in which Rust would panic, is given the default
region. -/
def EraseBlock.region (b : EraseBlock) : Region :=
  b.layout.regions.getD b.region_idx ⟨0, 0, 0⟩

/-- Mirrors `EraseBlock::addr_start`. -/
def EraseBlock.addr_start (b : EraseBlock) : Nat :=
  b.region.addr_start + b.region.eb_bytes * b.eb_offs_in_region

/-- Mirrors `EraseBlock::addr_end`. -/
def EraseBlock.addr_end (b : EraseBlock) : Nat :=
  b.addr_start + b.region.eb_bytes

/-- Mirrors `EraseBlock::len`. -/
def EraseBlock.len (b : EraseBlock) : Nat := b.region.eb_bytes

/-- The abstract construction failure of the specification. -/
inductive LayoutError where
  | InvalidLayout
deriving DecidableEq

/-- Mirrors the `windows(2)` loop of `FlashLayout::validate_regions`:
`false` iff some adjacent pair has `region[0].addr_end() > region[1].addr_start()`. -/
def validate_regions_go : List Region → Bool
  | r0 :: r1 :: rs =>
    if r0.addr_end > r1.addr_start then false else validate_regions_go (r1 :: rs)
  | _ => true

/-- Mirrors `FlashLayout::validate_regions`: fails on an empty table or on an
overlapping / mis-ordered adjacent pair. -/
def validate_regions (regions : List Region) : Bool :=
  if regions.isEmpty then false else validate_regions_go regions

/-- Mirrors `FlashLayout::new`; the two panics of `validate_regions` are
modelled as the `InvalidLayout` failure, following the specification. -/
def FlashLayout.new (regions : List Region) : Except LayoutError FlashLayout :=
  if validate_regions regions then .ok ⟨regions⟩ else .error .InvalidLayout

/-- Mirrors `FlashLayout::addr_start` (`self.regions[0].addr_start()`). -/
def FlashLayout.addr_start (l : FlashLayout) : Nat :=
  (l.regions.getD 0 ⟨0, 0, 0⟩).addr_start

/-- Mirrors `FlashLayout::addr_end`
(`self.regions[self.regions.len() - 1].addr_end()`). -/
def FlashLayout.addr_end (l : FlashLayout) : Nat :=
  (l.regions.getD (l.regions.length - 1) ⟨0, 0, 0⟩).addr_end

/-- The accumulator loop of `FlashLayout::len`. -/
def len_go : List Region → Nat → Nat
  | [], s => s
  | r :: rs, s => len_go rs (s + r.len)

/-- Mirrors `FlashLayout::len` (sum of the region lengths). -/
def FlashLayout.len (l : FlashLayout) : Nat := len_go l.regions 0

/-- The indexed scan loop of `FlashLayout::find_eb_by_addr`. -/
def find_eb_by_addr_go (l : FlashLayout) (addr : Nat) :
    List Region → Nat → Option (EraseBlock × Nat)
  | [], _ => none
  | r :: rs, i =>
    if r.contains_addr addr then
      let addr_in_r := addr - r.addr_start
      some (⟨l, i, addr_in_r / r.eb_bytes⟩, addr_in_r % r.eb_bytes)
    else
      find_eb_by_addr_go l addr rs (i + 1)

/-- Mirrors `FlashLayout::find_eb_by_addr`. -/
def FlashLayout.find_eb_by_addr (l : FlashLayout) (addr : Nat) :
    Option (EraseBlock × Nat) :=
  find_eb_by_addr_go l addr l.regions 0

/-- True exactly when the Rust execution of `find_eb_by_addr` reaches the
division `addr_in_r / r.eb_bytes` with a zero divisor (which would panic):
the scan stops at the first region containing `addr`, and the division is
executed only there. -/
def find_eb_by_addr_hits_div_by_zero_go (addr : Nat) : List Region → Bool
  | [] => false
  | r :: rs =>
    if r.contains_addr addr then r.eb_bytes == 0
    else find_eb_by_addr_hits_div_by_zero_go addr rs

/-- Whether `find_eb_by_addr` on this layout and address would divide by
zero. -/
def FlashLayout.find_eb_by_addr_hits_div_by_zero (l : FlashLayout) (addr : Nat) : Bool :=
  find_eb_by_addr_hits_div_by_zero_go addr l.regions

/-- The accumulator loop of `FlashLayout::find_eb_by_eb_num`
(`i` is the region index, `eb_a` the running erase-block count). -/
def find_eb_by_eb_num_go (l : FlashLayout) (eb_num : Nat) :
    List Region → Nat → Nat → Option EraseBlock
  | [], _, _ => none
  | r :: rs, i, eb_a =>
    let eb_n := r.eb_count + eb_a
    if eb_num < eb_n then some ⟨l, i, eb_num - eb_a⟩
    else find_eb_by_eb_num_go l eb_num rs (i + 1) eb_n

/-- Mirrors `FlashLayout::find_eb_by_eb_num`. -/
def FlashLayout.find_eb_by_eb_num (l : FlashLayout) (eb_num : Nat) :
    Option EraseBlock :=
  find_eb_by_eb_num_go l eb_num l.regions 0 0

/-- Mirrors `struct Range` (layout, cursor erase block, exclusive end
address). -/
structure Range where
  layout : FlashLayout
  first_eb : EraseBlock
  addr_end : Nat
deriving DecidableEq

/-- Mirrors `<Range as Iterator>::next`; the mutation of `self` is modelled by
returning the updated state next to the yielded item. -/
def Range.next (s : Range) : Option EraseBlock × Range :=
  if s.first_eb.region_idx > s.layout.regions.length then (none, s)
  else if s.first_eb.addr_end ≥ s.addr_end then (none, s)
  else if s.first_eb.eb_offs_in_region ≥ s.first_eb.region.eb_count ∧
      s.first_eb.region_idx + 1 > s.layout.regions.length then (none, s)
  else
    let eb : EraseBlock :=
      { s.first_eb with eb_offs_in_region := s.first_eb.eb_offs_in_region + 1 }
    (some eb, { s with first_eb := eb })

/-- The finite sequence of erase blocks yielded by repeatedly calling
`Range.next`, cut off after `fuel` calls. -/
def Range.items : Nat → Range → List EraseBlock
  | 0, _ => []
  | fuel + 1, s =>
    match Range.next s with
    | (none, _) => []
    | (some b, s2) => b :: Range.items fuel s2

/-- Region validity precondition of the specification (§3):
`eb_bytes > 0 ∧ eb_count > 0`. -/
def Region.wf (r : Region) : Prop := 0 < r.eb_bytes ∧ 0 < r.eb_count

/-- Layout validity as enforced by construction: a non-empty table whose
adjacent regions are ordered and non-overlapping (the theorem
`validate_regions_go_iff` below states the pair check as a chain of
inequalities). -/
def FlashLayout.valid (l : FlashLayout) : Prop :=
  l.regions ≠ [] ∧ validate_regions_go l.regions = true

/-- Full layout well-formedness: construction validity plus the per-region
precondition. -/
def FlashLayout.wf (l : FlashLayout) : Prop :=
  l.valid ∧ ∀ r ∈ l.regions, r.wf

instance (r : Region) : Decidable r.wf :=
  inferInstanceAs (Decidable (0 < r.eb_bytes ∧ 0 < r.eb_count))

instance (l : FlashLayout) : Decidable l.valid :=
  inferInstanceAs (Decidable (l.regions ≠ [] ∧ validate_regions_go l.regions = true))

instance (l : FlashLayout) : Decidable l.wf :=
  inferInstanceAs (Decidable (l.valid ∧ ∀ r ∈ l.regions, r.wf))

/-- Sum of the erase-block counts of a region table. -/
def sum_eb_count (rs : List Region) : Nat := (rs.map Region.eb_count).sum

/-- Total erase-block count of a layout. -/
def FlashLayout.total_eb_count (l : FlashLayout) : Nat := sum_eb_count l.regions

/-- The global erase-block number of an erase block, as defined by the
specification (§4.5): the concatenation of the local indices in region
order. -/
def EraseBlock.global_pos (b : EraseBlock) : Nat :=
  sum_eb_count (b.layout.regions.take b.region_idx) + b.eb_offs_in_region

/-- The single-region example layout of the specification (§8). -/
def exLayout1 : FlashLayout := ⟨[⟨100, 4, 4⟩]⟩

/-- The two-region gapped example layout of the specification (§8). -/
def gapLayout : FlashLayout := ⟨[⟨0, 256, 4⟩, ⟨2048, 1024, 2⟩]⟩

/-- A minimal two-region layout used to exhibit the `Range` iteration bug. -/
def exLayout2 : FlashLayout := ⟨[⟨0, 1, 1⟩, ⟨10, 1, 1⟩]⟩

/-- A `Range` over the whole single-region example device. -/
def exRange1 : Range := ⟨exLayout1, ⟨exLayout1, 0, 0⟩, 116⟩

/-- A `Range` over the whole two-region example device. -/
def exRange2 : Range := ⟨exLayout2, ⟨exLayout2, 0, 0⟩, 11⟩

example : exLayout1.find_eb_by_addr 105 = some (⟨exLayout1, 0, 1⟩, 1) := by decide

example : gapLayout.find_eb_by_addr 1500 = none := by decide

example : gapLayout.find_eb_by_eb_num 4 = some ⟨gapLayout, 1, 0⟩ := by decide

example : gapLayout.len = 3072 ∧ gapLayout.addr_end - gapLayout.addr_start = 4096 := by decide

example : Range.items 10 exRange1 =
    [⟨exLayout1, 0, 1⟩, ⟨exLayout1, 0, 2⟩, ⟨exLayout1, 0, 3⟩] := by decide

/-! ### The adjacent-pair check as a chain of inequalities -/

theorem validate_regions_go_iff (rs : List Region) :
    validate_regions_go rs = true ↔
      List.Chain' (fun r0 r1 => r0.addr_end ≤ r1.addr_start) rs := by
  induction rs with
  | nil => simp [validate_regions_go]
  | cons r0 rs ih =>
    cases rs with
    | nil => simp [validate_regions_go]
    | cons r1 rs2 =>
      constructor
      · intro hval
        have hle : ¬ r0.addr_end > r1.addr_start := by
          by_contra hgt
          simp [validate_regions_go, hgt] at hval
        rw [List.chain'_cons, ← ih]
        refine ⟨by omega, ?_⟩
        simpa [validate_regions_go, hle] using hval
      · intro hch
        rw [List.chain'_cons, ← ih] at hch
        have hle : ¬ r0.addr_end > r1.addr_start := by omega
        simpa [validate_regions_go, hle] using hch.2

/-! ### Basic facts about regions -/

theorem Region.contains_addr_iff (r : Region) (a : Nat) :
    r.contains_addr a = true ↔ r.addr_start ≤ a ∧ a < r.addr_end := by
  simp [Region.contains_addr, and_comm]

theorem Region.addr_start_le_addr_end (r : Region) : r.addr_start ≤ r.addr_end := by
  unfold Region.addr_start Region.addr_end
  omega

theorem Region.eb_bytes_pos_of_contains {r : Region} {a : Nat}
    (h : r.contains_addr a = true) : 0 < r.eb_bytes := by
  rcases (Region.contains_addr_iff r a).1 h with ⟨h1, h2⟩
  rcases Nat.eq_zero_or_pos r.eb_bytes with hz | hp
  · exfalso
    unfold Region.addr_end Region.len at h2
    rw [hz, Nat.zero_mul] at h2
    unfold Region.addr_start at h1
    omega
  · exact hp

/-! ### Characterization of the `find_eb_by_addr` scan -/

theorem find_eb_by_addr_go_eq_none (l : FlashLayout) (a : Nat) :
    ∀ (rs : List Region) (i : Nat),
      find_eb_by_addr_go l a rs i = none ↔ ∀ r ∈ rs, ¬ r.contains_addr a = true := by
  intro rs
  induction rs with
  | nil => intro i; simp [find_eb_by_addr_go]
  | cons r rs ih =>
    intro i
    by_cases h : r.contains_addr a = true
    · simp [find_eb_by_addr_go, h]
    · simp only [find_eb_by_addr_go, h, if_false, Bool.false_eq_true, ih (i + 1),
        List.mem_cons]
      constructor
      · rintro hall r0 (rfl | hr0)
        · exact h
        · exact hall r0 hr0
      · intro hall r0 hr0
        exact hall r0 (Or.inr hr0)

theorem find_eb_by_addr_go_eq_some (l : FlashLayout) (a : Nat) :
    ∀ (rs : List Region) (i : Nat), (∀ k, rs[k]? = l.regions[i + k]?) →
      ∀ b rem, find_eb_by_addr_go l a rs i = some (b, rem) →
        b.layout = l ∧ b.region_idx < l.regions.length ∧
        l.regions[b.region_idx]? = some b.region ∧
        b.region.contains_addr a = true ∧
        b.eb_offs_in_region = (a - b.region.addr_start) / b.region.eb_bytes ∧
        rem = (a - b.region.addr_start) % b.region.eb_bytes := by
  intro rs
  induction rs with
  | nil => intro i _ b rem hb; simp [find_eb_by_addr_go] at hb
  | cons r rs ih =>
    intro i hidx b rem hb
    by_cases h : r.contains_addr a = true
    · simp only [find_eb_by_addr_go, h, if_true, Option.some.injEq, Prod.mk.injEq] at hb
      obtain ⟨hb1, hb2⟩ := hb
      have hi : l.regions[i]? = some r := by
        have := hidx 0
        simpa using this.symm
      have hlen : i < l.regions.length := by
        rcases List.getElem?_eq_some_iff.1 hi with ⟨hl, _⟩
        exact hl
      subst hb1
      have hreg : EraseBlock.region ⟨l, i, (a - r.addr_start) / r.eb_bytes⟩ = r := by
        unfold EraseBlock.region
        rw [List.getD_eq_getElem?_getD, hi]
        rfl
      refine ⟨rfl, hlen, ?_, ?_, ?_, ?_⟩
      · rw [hreg]; exact hi
      · rw [hreg]; exact h
      · rw [hreg]
      · rw [hreg]; exact hb2.symm
    · simp only [find_eb_by_addr_go, h, if_false, Bool.false_eq_true] at hb
      refine ih (i + 1) ?_ b rem hb
      intro k
      have := hidx (k + 1)
      simpa [Nat.add_assoc, Nat.add_comm 1 k] using this

theorem find_eb_by_addr_go_intro (l : FlashLayout) (a : Nat) :
    ∀ (rs : List Region) (i k : Nat) (r : Region),
      rs[k]? = some r →
      (∀ j rj, j < k → rs[j]? = some rj → ¬ rj.contains_addr a = true) →
      r.contains_addr a = true →
      find_eb_by_addr_go l a rs i =
        some (⟨l, i + k, (a - r.addr_start) / r.eb_bytes⟩,
          (a - r.addr_start) % r.eb_bytes) := by
  intro rs
  induction rs with
  | nil => intro i k r hk; simp at hk
  | cons r0 rs ih =>
    intro i k r hk hpre hc
    cases k with
    | zero =>
      simp only [List.getElem?_cons_zero, Option.some.injEq] at hk
      subst hk
      simp [find_eb_by_addr_go, hc]
    | succ k2 =>
      have h0 : ¬ r0.contains_addr a = true :=
        hpre 0 r0 (Nat.succ_pos k2) (by simp)
      rw [List.getElem?_cons_succ] at hk
      have hrec := ih (i + 1) k2 r hk
        (fun j rj hj hrj => hpre (j + 1) rj (by omega) (by simpa using hrj)) hc
      simp only [find_eb_by_addr_go, h0, if_false, Bool.false_eq_true]
      rw [hrec]
      have : i + 1 + k2 = i + (k2 + 1) := by omega
      rw [this]

/-- Claim C1: for every valid layout and every address `a`,
`find_eb_by_addr a` returns `some` if and only if `a` falls inside some
region, and when it returns `some (b, rem)` the erase block `b` satisfies
`b.addr_start ≤ a < b.addr_end` and the remainder equals
`a - b.addr_start`. -/
theorem find_eb_by_addr_spec (l : FlashLayout) (a : Nat) (_hv : l.valid) :
    ((l.find_eb_by_addr a).isSome ↔ ∃ r ∈ l.regions, r.contains_addr a = true) ∧
    (∀ b rem, l.find_eb_by_addr a = some (b, rem) →
      b.addr_start ≤ a ∧ a < b.addr_end ∧ rem = a - b.addr_start) := by
  constructor
  · rw [Option.isSome_iff_ne_none, ne_eq, FlashLayout.find_eb_by_addr,
      find_eb_by_addr_go_eq_none l a l.regions 0]
    simp
  · intro b rem hb
    obtain ⟨hlay, hlen, hreg, hc, hoffs, hrem⟩ :=
      find_eb_by_addr_go_eq_some l a l.regions 0 (fun k => by simp) b rem hb
    rcases (Region.contains_addr_iff _ _).1 hc with ⟨h1, h2⟩
    have hbpos : 0 < b.region.eb_bytes := Region.eb_bytes_pos_of_contains hc
    have hdm := Nat.div_add_mod (a - b.region.addr_start) b.region.eb_bytes
    have hmlt := Nat.mod_lt (a - b.region.addr_start) hbpos
    unfold EraseBlock.addr_end EraseBlock.addr_start
    rw [hoffs, hrem]
    omega

/-- Witness for claim C1 at the single-region example layout and address
105. -/
theorem find_eb_by_addr_spec_witness :
    ((exLayout1.find_eb_by_addr 105).isSome ↔
      ∃ r ∈ exLayout1.regions, r.contains_addr 105 = true) ∧
    (∀ b rem, exLayout1.find_eb_by_addr 105 = some (b, rem) →
      b.addr_start ≤ 105 ∧ 105 < b.addr_end ∧ rem = 105 - b.addr_start) :=
  find_eb_by_addr_spec exLayout1 105 (by decide)

/-! ### The division in `find_eb_by_addr` is never executed with a zero
divisor: a region with `eb_bytes = 0` has an empty address span, so
`contains_addr` rejects every address before the division is reached. -/

theorem find_eb_by_addr_hits_div_by_zero_go_false (a : Nat) :
    ∀ rs : List Region, find_eb_by_addr_hits_div_by_zero_go a rs = false := by
  intro rs
  induction rs with
  | nil => rfl
  | cons r rs ih =>
    by_cases h : r.contains_addr a = true
    · have hpos := Region.eb_bytes_pos_of_contains h
      simp only [find_eb_by_addr_hits_div_by_zero_go, h, if_true]
      rw [beq_eq_false_iff_ne]
      omega
    · simp [find_eb_by_addr_hits_div_by_zero_go, h, ih]

/-- Claim C9 counterexample: there is no layout (in particular none
containing a region with `eb_bytes = 0`) and no queried address for which
`find_eb_by_addr` reaches its division with a zero divisor. -/
theorem find_eb_by_addr_div_by_zero_counterexample :
    ¬ ∃ (l : FlashLayout) (a : Nat),
        l.find_eb_by_addr_hits_div_by_zero a = true := by
  rintro ⟨l, a, h⟩
  rw [FlashLayout.find_eb_by_addr_hits_div_by_zero,
    find_eb_by_addr_hits_div_by_zero_go_false] at h
  exact Bool.false_ne_true h

/-- Claim C9 (amended): for every layout and every queried address,
`find_eb_by_addr` never performs a division by zero; a region with
`eb_bytes = 0` has an empty address span, so `contains_addr` is false for
every address and the division guarded by it is never reached. -/
theorem find_eb_by_addr_never_divides_by_zero (l : FlashLayout) (a : Nat) :
    l.find_eb_by_addr_hits_div_by_zero a = false ∧
    ∀ r ∈ l.regions, r.eb_bytes = 0 → r.contains_addr a = false := by
  refine ⟨find_eb_by_addr_hits_div_by_zero_go_false a l.regions, ?_⟩
  intro r hr hz
  by_contra hc
  have hc2 : r.contains_addr a = true := by
    revert hc; cases r.contains_addr a <;> simp
  have := Region.eb_bytes_pos_of_contains hc2
  omega

/-- Witness for the amended claim C9 at a layout whose only region has
`eb_bytes = 0`. -/
theorem find_eb_by_addr_never_divides_by_zero_witness :
    FlashLayout.find_eb_by_addr_hits_div_by_zero ⟨[⟨100, 0, 4⟩]⟩ 100 = false :=
  (find_eb_by_addr_never_divides_by_zero ⟨[⟨100, 0, 4⟩]⟩ 100).1

/-! ### Construction -/

theorem validate_regions_iff (regions : List Region) :
    validate_regions regions = true ↔
      regions ≠ [] ∧
        List.Chain' (fun r0 r1 => r0.addr_end ≤ r1.addr_start) regions := by
  unfold validate_regions
  by_cases h : regions.isEmpty
  · rw [List.isEmpty_iff] at h
    simp [h]
  · rw [List.isEmpty_iff] at h
    simp [h, validate_regions_go_iff, List.isEmpty_iff]

theorem getD_length_pred_of_getLast? (rs : List Region) (d r : Region)
    (h : rs.getLast? = some r) : rs.getD (rs.length - 1) d = r := by
  induction rs with
  | nil => simp at h
  | cons r0 rs ih =>
    cases rs with
    | nil =>
      simp only [List.getLast?_singleton, Option.some.injEq] at h
      simp [h]
    | cons r1 rs2 =>
      rw [List.getLast?_cons_cons] at h
      have hrec := ih h
      simp only [List.length_cons] at hrec ⊢
      rw [Nat.add_sub_cancel, List.getD_cons_succ]
      rw [Nat.add_sub_cancel] at hrec
      exact hrec

/-- Claim C3: construction succeeds exactly when the region table is
non-empty and every adjacent pair satisfies
`region[i].addr_end ≤ region[i+1].addr_start`; on success `addr_start` and
`addr_end` equal the first region start address and the last region end
address, and on an empty table or a mis-ordered/overlapping adjacent pair
construction fails with `InvalidLayout`. -/
theorem flash_layout_new_spec (regions : List Region) :
    ((∃ l, FlashLayout.new regions = .ok l) ↔
      regions ≠ [] ∧
        List.Chain' (fun r0 r1 => r0.addr_end ≤ r1.addr_start) regions) ∧
    (∀ l, FlashLayout.new regions = .ok l →
      l.regions = regions ∧
      (∀ r0, regions.head? = some r0 → l.addr_start = r0.addr_start) ∧
      (∀ rl, regions.getLast? = some rl → l.addr_end = rl.addr_end)) ∧
    ((regions = [] ∨ ∃ i r0 r1, regions[i]? = some r0 ∧
        regions[i + 1]? = some r1 ∧ r0.addr_end > r1.addr_start) →
      FlashLayout.new regions = .error .InvalidLayout) := by
  refine ⟨⟨?_, ?_⟩, ?_, ?_⟩
  · rintro ⟨l, hl⟩
    unfold FlashLayout.new at hl
    by_cases h : validate_regions regions = true
    · exact (validate_regions_iff regions).1 h
    · simp [h] at hl
  · intro h
    refine ⟨⟨regions⟩, ?_⟩
    unfold FlashLayout.new
    simp [(validate_regions_iff regions).2 h]
  · intro l hl
    unfold FlashLayout.new at hl
    by_cases h : validate_regions regions = true
    · simp only [h, if_true, Except.ok.injEq] at hl
      subst hl
      refine ⟨rfl, ?_, ?_⟩
      · intro r0 h0
        cases regions with
        | nil => simp at h0
        | cons rr rs =>
          simp only [List.head?_cons, Option.some.injEq] at h0
          subst h0
          rfl
      · intro rl hlast
        unfold FlashLayout.addr_end
        rw [getD_length_pred_of_getLast? regions ⟨0, 0, 0⟩ rl hlast]
    · simp [h] at hl
  · intro hbad
    have hval : validate_regions regions = false := by
      cases hv2 : validate_regions regions
      · rfl
      · exfalso
        rcases (validate_regions_iff regions).1 hv2 with ⟨hne, hch⟩
        rcases hbad with rfl | ⟨i, r0, r1, h0, h1, hgt⟩
        · exact hne rfl
        · rcases List.getElem?_eq_some_iff.1 h0 with ⟨hi0, he0⟩
          rcases List.getElem?_eq_some_iff.1 h1 with ⟨hi1, he1⟩
          rw [List.chain'_iff_get] at hch
          have := hch i (by omega)
          simp only [List.get_eq_getElem] at this
          rw [he0, he1] at this
          omega
    unfold FlashLayout.new
    simp [hval]

/-- Witness for claim C3 at the single-region example table. -/
theorem flash_layout_new_spec_witness :
    ∃ l, FlashLayout.new [⟨100, 4, 4⟩] = .ok l :=
  (flash_layout_new_spec [⟨100, 4, 4⟩]).1.2
    ((validate_regions_iff [⟨100, 4, 4⟩]).1 (by decide))

/-! ### Whole-device length -/

theorem len_go_eq (rs : List Region) : ∀ s, len_go rs s = s + (rs.map Region.len).sum := by
  induction rs with
  | nil => intro s; simp [len_go]
  | cons r rs ih =>
    intro s
    simp only [len_go, ih, List.map_cons, List.sum_cons]
    omega

/-- Claim C8: `len` equals the sum of the region lengths
(`eb_bytes * eb_count` summed over all regions), even when gaps exist
between regions; on the gapped example layout it is strictly less than
`addr_end - addr_start`. -/
theorem flash_layout_len_spec :
    (∀ l : FlashLayout, l.len = (l.regions.map Region.len).sum) ∧
    gapLayout.valid ∧
    gapLayout.len < gapLayout.addr_end - gapLayout.addr_start := by
  refine ⟨fun l => ?_, by decide, by decide⟩
  simpa [FlashLayout.len] using len_go_eq l.regions 0

/-! ### Lookup by global erase-block number -/

theorem sum_eb_count_cons (r : Region) (rs : List Region) :
    sum_eb_count (r :: rs) = r.eb_count + sum_eb_count rs := by
  simp [sum_eb_count]

theorem find_eb_by_eb_num_go_none (l : FlashLayout) (n : Nat) :
    ∀ (rs : List Region) (i acc : Nat), acc + sum_eb_count rs ≤ n →
      find_eb_by_eb_num_go l n rs i acc = none := by
  intro rs
  induction rs with
  | nil => intro i acc _; rfl
  | cons r rs ih =>
    intro i acc h
    rw [sum_eb_count_cons] at h
    have hsum : 0 ≤ sum_eb_count rs := Nat.zero_le _
    have hlt : ¬ n < r.eb_count + acc := by omega
    simp only [find_eb_by_eb_num_go, hlt, if_false]
    exact ih (i + 1) (r.eb_count + acc) (by omega)

theorem find_eb_by_eb_num_go_some (l : FlashLayout) (n : Nat) :
    ∀ (rs : List Region) (i acc : Nat), acc ≤ n → n < acc + sum_eb_count rs →
      ∃ k r, rs[k]? = some r ∧
        find_eb_by_eb_num_go l n rs i acc =
          some ⟨l, i + k, n - (acc + sum_eb_count (rs.take k))⟩ ∧
        acc + sum_eb_count (rs.take k) ≤ n ∧
        n - (acc + sum_eb_count (rs.take k)) < r.eb_count := by
  intro rs
  induction rs with
  | nil =>
    intro i acc h1 h2
    exfalso
    unfold sum_eb_count at h2
    simp at h2
    omega
  | cons r rs ih =>
    intro i acc h1 h2
    by_cases hlt : n < r.eb_count + acc
    · refine ⟨0, r, by simp, ?_, ?_, ?_⟩
      · simp [find_eb_by_eb_num_go, hlt, sum_eb_count]
      · simp [sum_eb_count]; omega
      · simp [sum_eb_count]; omega
    · rw [sum_eb_count_cons] at h2
      obtain ⟨k, rk, hk, heq, hle, hlt2⟩ :=
        ih (i + 1) (r.eb_count + acc) (by omega) (by omega)
      have hfin : (⟨l, i + 1 + k, n - (r.eb_count + acc + sum_eb_count (rs.take k))⟩ :
            EraseBlock) =
          ⟨l, i + (k + 1), n - (acc + sum_eb_count ((r :: rs).take (k + 1)))⟩ := by
        rw [List.take_succ_cons, sum_eb_count_cons]
        congr 1 <;> omega
      refine ⟨k + 1, rk, by simpa using hk, ?_, ?_, ?_⟩
      · simp only [find_eb_by_eb_num_go, hlt, if_false]
        rw [heq, hfin]
      · rw [List.take_succ_cons, sum_eb_count_cons]
        omega
      · rw [List.take_succ_cons, sum_eb_count_cons]
        have : r.eb_count + acc + sum_eb_count (rs.take k) =
            acc + (r.eb_count + sum_eb_count (rs.take k)) := by omega
        rw [← this]
        exact hlt2

/-- Claim C2: for every valid layout, `find_eb_by_eb_num n` with
`n < total_eb_count` returns an erase block of this layout whose global
position (the sum of `eb_count` over all preceding regions plus its offset
within its region) equals `n`, and for every `n ≥ total_eb_count` it
returns nothing. -/
theorem find_eb_by_eb_num_spec (l : FlashLayout) (n : Nat) (_hv : l.valid) :
    (n < l.total_eb_count →
      ∃ b, l.find_eb_by_eb_num n = some b ∧ b.layout = l ∧ b.global_pos = n) ∧
    (l.total_eb_count ≤ n → l.find_eb_by_eb_num n = none) := by
  constructor
  · intro hn
    obtain ⟨k, r, hk, heq, hle, hlt⟩ :=
      find_eb_by_eb_num_go_some l n l.regions 0 0 (Nat.zero_le n)
        (by simpa [FlashLayout.total_eb_count] using hn)
    refine ⟨⟨l, k, n - sum_eb_count (l.regions.take k)⟩, ?_, rfl, ?_⟩
    · rw [FlashLayout.find_eb_by_eb_num, heq]
      simp
    · unfold EraseBlock.global_pos
      simp only
      omega
  · intro hn
    exact find_eb_by_eb_num_go_none l n l.regions 0 0
      (by simpa [FlashLayout.total_eb_count] using hn)

/-- Witness for claim C2 at the gapped example layout and erase-block
number 4 (the first block of the second region). -/
theorem find_eb_by_eb_num_spec_witness :
    ∃ b, gapLayout.find_eb_by_eb_num 4 = some b ∧ b.layout = gapLayout ∧
      b.global_pos = 4 :=
  (find_eb_by_eb_num_spec gapLayout 4 (by decide)).1 (by decide)

/-! ### Ordered layouts: earlier regions end before later regions start -/

theorem chain_head_le_all (r : Region) (rs : List Region)
    (hc : List.Chain' (fun r0 r1 => r0.addr_end ≤ r1.addr_start) (r :: rs)) :
    ∀ (k : Nat) (rk : Region), rs[k]? = some rk → r.addr_end ≤ rk.addr_start := by
  induction rs generalizing r with
  | nil => intro k rk h; simp at h
  | cons r1 rs ih =>
    intro k rk hk
    rw [List.chain'_cons] at hc
    cases k with
    | zero =>
      simp only [List.getElem?_cons_zero, Option.some.injEq] at hk
      subst hk
      exact hc.1
    | succ k2 =>
      rw [List.getElem?_cons_succ] at hk
      have h1 := ih r1 hc.2 k2 rk hk
      have h2 := Region.addr_start_le_addr_end r1
      omega

theorem chain_span_le : ∀ (rs : List Region),
    List.Chain' (fun r0 r1 => r0.addr_end ≤ r1.addr_start) rs →
    ∀ (j k : Nat) (rj rk : Region), j < k → rs[j]? = some rj →
      rs[k]? = some rk → rj.addr_end ≤ rk.addr_start := by
  intro rs
  induction rs with
  | nil => intro _ j k rj rk _ hj _; simp at hj
  | cons r rs ih =>
    intro hc j k rj rk hjk hj hk
    cases j with
    | zero =>
      simp only [List.getElem?_cons_zero, Option.some.injEq] at hj
      subst hj
      cases k with
      | zero => omega
      | succ k2 =>
        rw [List.getElem?_cons_succ] at hk
        exact chain_head_le_all _ rs hc k2 rk hk
    | succ j2 =>
      cases k with
      | zero => omega
      | succ k2 =>
        rw [List.getElem?_cons_succ] at hj hk
        exact ih hc.tail j2 k2 rj rk (by omega) hj hk

/-! ### Round trip: looking up the start address of an erase block -/

theorem find_eb_by_addr_at_block_start (l : FlashLayout) (b : EraseBlock)
    (hw : l.wf) (hlay : b.layout = l) (r : Region)
    (hr : l.regions[b.region_idx]? = some r)
    (ho : b.eb_offs_in_region < r.eb_count) :
    l.find_eb_by_addr b.addr_start = some (b, 0) := by
  have hmem : r ∈ l.regions := List.getElem?_mem hr
  obtain ⟨hbpos, hcpos⟩ := hw.2 r hmem
  have hreg : b.region = r := by
    unfold EraseBlock.region
    rw [hlay, List.getD_eq_getElem?_getD, hr]
    rfl
  have hstart : b.addr_start = r.addr_start + r.eb_bytes * b.eb_offs_in_region := by
    unfold EraseBlock.addr_start
    rw [hreg]
  have hcont : r.contains_addr b.addr_start = true := by
    rw [Region.contains_addr_iff]
    refine ⟨by rw [hstart]; omega, ?_⟩
    rw [hstart]
    unfold Region.addr_end Region.len Region.addr_start
    have hmul : r.eb_bytes * b.eb_offs_in_region + r.eb_bytes ≤
        r.eb_bytes * r.eb_count := by
      calc r.eb_bytes * b.eb_offs_in_region + r.eb_bytes
          = r.eb_bytes * (b.eb_offs_in_region + 1) := by ring
        _ ≤ r.eb_bytes * r.eb_count := Nat.mul_le_mul_left _ ho
    unfold Region.addr_start at hstart
    omega
  have hpre : ∀ j rj, j < b.region_idx → l.regions[j]? = some rj →
      ¬ rj.contains_addr b.addr_start = true := by
    intro j rj hj hrj hcj
    rcases (Region.contains_addr_iff _ _).1 hcj with ⟨_, hlt⟩
    have hspan := chain_span_le l.regions
      ((validate_regions_go_iff l.regions).1 hw.1.2) j b.region_idx rj r hj hrj hr
    have hrs : r.addr_start ≤ b.addr_start := by rw [hstart]; omega
    omega
  have hgo := find_eb_by_addr_go_intro l b.addr_start l.regions 0 b.region_idx
    r hr hpre hcont
  have hsub : b.addr_start - r.addr_start = r.eb_bytes * b.eb_offs_in_region := by
    rw [hstart]; omega
  have hb : (⟨l, 0 + b.region_idx, b.eb_offs_in_region⟩ : EraseBlock) = b := by
    obtain ⟨bl, bi, bo⟩ := b
    simp only [EraseBlock.mk.injEq]
    exact ⟨hlay.symm, by omega, trivial⟩
  rw [FlashLayout.find_eb_by_addr, hgo, hsub,
    Nat.mul_div_cancel_left _ hbpos, Nat.mul_mod_right, hb]

theorem find_eb_by_addr_some_inbounds (l : FlashLayout) (a : Nat)
    (b : EraseBlock) (rem : Nat) (hb : l.find_eb_by_addr a = some (b, rem)) :
    b.layout = l ∧ l.regions[b.region_idx]? = some b.region ∧
      b.eb_offs_in_region < b.region.eb_count := by
  obtain ⟨hlay, hlen, hreg, hc, hoffs, hrem⟩ :=
    find_eb_by_addr_go_eq_some l a l.regions 0 (fun k => by simp) b rem hb
  refine ⟨hlay, hreg, ?_⟩
  rcases (Region.contains_addr_iff _ _).1 hc with ⟨h1, h2⟩
  have hbpos := Region.eb_bytes_pos_of_contains hc
  rw [hoffs]
  have hlt : a - b.region.addr_start < b.region.eb_bytes * b.region.eb_count := by
    unfold Region.addr_end Region.len at h2
    unfold Region.addr_start at h1 ⊢
    omega
  exact Nat.div_lt_of_lt_mul hlt

theorem find_eb_by_eb_num_some_inbounds (l : FlashLayout) (n : Nat)
    (b : EraseBlock) (hb : l.find_eb_by_eb_num n = some b) :
    b.layout = l ∧ ∃ r, l.regions[b.region_idx]? = some r ∧
      b.eb_offs_in_region < r.eb_count := by
  by_cases hn : n < l.total_eb_count
  · obtain ⟨k, r, hk, heq, hle, hlt⟩ :=
      find_eb_by_eb_num_go_some l n l.regions 0 0 (Nat.zero_le n)
        (by simpa [FlashLayout.total_eb_count] using hn)
    rw [FlashLayout.find_eb_by_eb_num, heq] at hb
    simp only [Option.some.injEq] at hb
    subst hb
    refine ⟨rfl, r, by simpa using hk, by simpa using hlt⟩
  · rw [FlashLayout.find_eb_by_eb_num,
      find_eb_by_eb_num_go_none l n l.regions 0 0 (by
        rw [Nat.zero_add]
        unfold FlashLayout.total_eb_count at hn
        omega)] at hb
    simp at hb

/-- Claim C7: for every well-formed layout and every erase block `b`
obtained from `find_eb_by_addr` or `find_eb_by_eb_num`, looking up
`b.addr_start` returns an erase block with the same region index and the
same in-region offset as `b`, with remainder zero. -/
theorem find_eb_round_trip (l : FlashLayout) (a n : Nat) (b : EraseBlock)
    (rem : Nat) (hw : l.wf)
    (hb : l.find_eb_by_addr a = some (b, rem) ∨ l.find_eb_by_eb_num n = some b) :
    ∃ b2, l.find_eb_by_addr b.addr_start = some (b2, 0) ∧
      b2.region_idx = b.region_idx ∧
      b2.eb_offs_in_region = b.eb_offs_in_region := by
  have hib : b.layout = l ∧ ∃ r, l.regions[b.region_idx]? = some r ∧
      b.eb_offs_in_region < r.eb_count := by
    rcases hb with hb | hb
    · obtain ⟨h1, h2, h3⟩ := find_eb_by_addr_some_inbounds l a b rem hb
      exact ⟨h1, b.region, h2, h3⟩
    · exact find_eb_by_eb_num_some_inbounds l n b hb
  obtain ⟨hlay, r, hr, ho⟩ := hib
  exact ⟨b, find_eb_by_addr_at_block_start l b hw hlay r hr ho, rfl, rfl⟩

/-- Witness for claim C7: the first erase block of the second region of the
gapped example layout, obtained from `find_eb_by_eb_num 4`. -/
theorem find_eb_round_trip_witness :
    ∃ b2, gapLayout.find_eb_by_addr
        (EraseBlock.addr_start ⟨gapLayout, 1, 0⟩) = some (b2, 0) ∧
      b2.region_idx = (⟨gapLayout, 1, 0⟩ : EraseBlock).region_idx ∧
      b2.eb_offs_in_region = (⟨gapLayout, 1, 0⟩ : EraseBlock).eb_offs_in_region :=
  find_eb_round_trip gapLayout 0 4 ⟨gapLayout, 1, 0⟩ 0 (by decide)
    (Or.inr (by decide))

/-! ### Range iteration -/

/-- Claim C10: every call to `Range.next` (on a state whose cursor is
within the region table, so that the modelled execution matches the code)
leaves the layout reference, the cursor region index, and the end address
unchanged; when it yields an item it increments only `eb_offs_in_region`,
by exactly one, before producing the block, so the erase block at the
initial cursor position is itself never yielded. -/
theorem range_next_frame (s : Range)
    (_hs : s.first_eb.region_idx < s.layout.regions.length) :
    ((Range.next s).2.layout = s.layout ∧
      (Range.next s).2.addr_end = s.addr_end ∧
      (Range.next s).2.first_eb.layout = s.first_eb.layout ∧
      (Range.next s).2.first_eb.region_idx = s.first_eb.region_idx) ∧
    (∀ b, (Range.next s).1 = some b →
      b = { s.first_eb with
              eb_offs_in_region := s.first_eb.eb_offs_in_region + 1 } ∧
      (Range.next s).2.first_eb = b ∧
      b.eb_offs_in_region ≠ s.first_eb.eb_offs_in_region) := by
  by_cases h1 : s.first_eb.region_idx > s.layout.regions.length
  · simp [Range.next, h1]
  · by_cases h2 : s.first_eb.addr_end ≥ s.addr_end
    · simp [Range.next, h1, h2]
    · by_cases h3 : s.first_eb.eb_offs_in_region ≥ s.first_eb.region.eb_count ∧
          s.first_eb.region_idx + 1 > s.layout.regions.length
      · simp [Range.next, h1, h2, h3]
      · refine ⟨by simp [Range.next, h1, h2, h3], ?_⟩
        rintro b hb
        simp only [Range.next, h1, h2, h3, if_false, Option.some.injEq] at hb
        subst hb
        refine ⟨rfl, ?_, by simp⟩
        simp [Range.next, h1, h2, h3]

/-- Witness for claim C10 at the whole-device range of the single-region
example layout. -/
theorem range_next_frame_witness :
    (Range.next exRange1).2.layout = exRange1.layout ∧
    (Range.next exRange1).2.addr_end = exRange1.addr_end ∧
    (Range.next exRange1).2.first_eb.layout = exRange1.first_eb.layout ∧
    (Range.next exRange1).2.first_eb.region_idx = exRange1.first_eb.region_idx :=
  (range_next_frame exRange1 (by decide)).1

/-- Claim C4 (refuted by the code): on the single-region example device, a
`Range` over `[100, 116)` starting at the erase block covering
`[100, 104)` yields exactly the blocks at offsets 1, 2 and 3 and never
yields the starting block, so the yielded sequence fails to cover
`[first_eb.addr_start, addr_end)`: address 100 lies in no yielded
block. -/
theorem range_items_skip_first_block :
    Range.items 10 exRange1 =
      [⟨exLayout1, 0, 1⟩, ⟨exLayout1, 0, 2⟩, ⟨exLayout1, 0, 3⟩] ∧
    exRange1.first_eb.addr_start = 100 ∧ exRange1.addr_end = 116 ∧
    ∀ b ∈ Range.items 10 exRange1,
      ¬ (b.addr_start ≤ 100 ∧ 100 < b.addr_end) := by
  decide

/-- Claim C5 (refuted by the code): on a two-region device, a `Range`
spanning both regions never crosses into the second region: after
exhausting region 0 (whose `eb_count` is 1) the iterator keeps
incrementing the in-region offset, yielding offsets 1 through 10 all with
region index 0, and never resets the offset to zero nor advances the
region index. -/
theorem range_items_never_cross_region :
    Range.items 20 exRange2 =
      [⟨exLayout2, 0, 1⟩, ⟨exLayout2, 0, 2⟩, ⟨exLayout2, 0, 3⟩,
       ⟨exLayout2, 0, 4⟩, ⟨exLayout2, 0, 5⟩, ⟨exLayout2, 0, 6⟩,
       ⟨exLayout2, 0, 7⟩, ⟨exLayout2, 0, 8⟩, ⟨exLayout2, 0, 9⟩,
       ⟨exLayout2, 0, 10⟩] ∧
    (∀ b ∈ Range.items 20 exRange2, b.region_idx = 0) := by
  decide

/-- Claim C6 (refuted by the code): `Range` iteration constructs an
out-of-range erase block: the first block yielded on the two-region
example has in-region offset 1 while its region (index 0) has
`eb_count = 1`. -/
theorem range_yields_out_of_range_block :
    (Range.next exRange2).1 = some ⟨exLayout2, 0, 1⟩ ∧
    ¬ ((⟨exLayout2, 0, 1⟩ : EraseBlock).eb_offs_in_region <
        (⟨exLayout2, 0, 1⟩ : EraseBlock).region.eb_count) := by
  decide

end Mtxn
